import Mathlib

/-!
Verification of the `version` package of storj.io/private against its
specification.

The Go source is embedded shallowly:

* Go byte slices and arrays (`[]byte`, `[32]byte`, `storj.NodeID`,
  `RolloutBytes`) become `List Nat` whose elements are byte values; where a
  statement needs the byte invariants (`length = 32`, every element `< 256`)
  they appear as explicit hypotheses.
* `math/big.Int` values become `Int`; `big.Int.Div` is Euclidean division,
  which is `Int.ediv`.  `big.Int.Bytes` returns the minimal big-endian byte
  string of the absolute value, modelled by `bigIntBytes`.
* Go strings become `List Char` (the inputs of interest are ASCII); the
  exported entry point `NewSemVer` takes a Lean `String` and works on its
  character list.
* Fallible Go functions returning `(T, error)` become `Except VErr T` or
  `Option`; a Go runtime panic that is distinct from an error return is
  modelled by a dedicated constructor (`UnmarshalResult.panicked`).
* Machine integers use `Nat`/`Int` with explicit reduction modulo `2^32`
  where the Go code relies on `uint32` wrap-around (SHA-256).
-/

/-! ## Byte strings, big-endian values and `bytes.Compare` -/

/-- A Go byte slice: list of byte values (each `< 256` where it matters). -/
abbrev Bytes := List Nat

/-- Value of a byte string read as a big-endian unsigned integer
(the interpretation `big.Int.SetBytes` uses). -/
def beNat : Bytes → Nat
  | [] => 0
  | b :: rest => b * 256 ^ rest.length + beNat rest

/-- Value of a byte string read as a little-endian unsigned integer
(auxiliary for reasoning about `natBytesLE`). -/
def leNat : Bytes → Nat
  | [] => 0
  | b :: rest => b + 256 * leNat rest

/-- Go `bytes.Compare`: lexicographic byte-wise comparison, a strict prefix
compares smaller; returns -1, 0 or 1. -/
def bytesCompare : Bytes → Bytes → Int
  | [], [] => 0
  | [], _ :: _ => -1
  | _ :: _, [] => 1
  | a :: as, b :: bs =>
    if a < b then -1 else if b < a then 1 else bytesCompare as bs

/-- Little-endian byte string of `n`, least significant byte first, minimal
length (no trailing zero byte); `fuel` bounds the recursion depth. -/
def natBytesLE : Nat → Nat → Bytes
  | 0, _ => []
  | f + 1, n => if n = 0 then [] else n % 256 :: natBytesLE f (n / 256)

/-- Go `big.Int.Bytes` on a non-negative value: minimal big-endian byte
string (empty for zero).  Fuel 64 covers every value below `2^512`. -/
def natBytesBE (n : Nat) : Bytes := (natBytesLE 64 n).reverse

/-- Go `big.Int.Bytes`: big-endian bytes of the absolute value. -/
def bigIntBytes (i : Int) : Bytes := natBytesBE i.natAbs

/-- Go `copy(cursor[:], maskInt.Bytes())` followed by returning `cursor`:
the source bytes land at the FRONT of the 32-byte array (so a short byte
string is left-aligned, i.e. shifted towards the most significant end),
and the remaining bytes keep their zero value. -/
def copyToCursor (src : Bytes) : Bytes :=
  src.take 32 ++ List.replicate (32 - (src.take 32).length) 0

/-- The all-zero `RolloutBytes` value (`RolloutBytes{}` in Go). -/
def zeroRolloutBytes : Bytes := List.replicate 32 0

/-- `maxInt` as built by both percentage mappers: 32 bytes of `255` read
big-endian (`maxInt.SetBytes(maxBytes[:])`). -/
def maxRolloutInt : Nat := beNat (List.replicate 32 255)

/-! ## The two percentage mappers

`PercentageToCursorF(pct float64)` converts `pct` to an integer at entry:
`big.NewInt(int64(pct*10000))`.  The float64 multiplication and truncation
happen before any of the arithmetic under verification; the embedding
therefore takes that already-converted integer `pctTimes10000` as its
argument (for `pct` in `[0,100]` it lies in `[0, 1000000]`). -/

/-- `PercentageToCursorF`, after the float-to-int conversion at entry:
`maskInt = (maxInt / 1000000) * pctTimes10000` (note: the division by
`100*10000` happens FIRST, then the multiplication), then the bytes of
`maskInt` are copied to the front of a zero 32-byte cursor. -/
def PercentageToCursorF (pctTimes10000 : Int) : Bytes :=
  copyToCursor (bigIntBytes ((Int.ofNat maxRolloutInt).ediv (100 * 10000) * pctTimes10000))

/-- `PercentageToCursor` (legacy): `maskInt = (maxInt * pct) / 100`
(multiplication first, then Euclidean division), bytes copied to the front
of a zero 32-byte cursor. -/
def PercentageToCursor (pct : Int) : Bytes :=
  copyToCursor (bigIntBytes ((Int.ofNat maxRolloutInt * pct).ediv 100))

/-! ## Hex codec of `RolloutBytes` -/

/-- Go `encoding/hex.fromHexChar`: value of one hex digit byte, `none` for a
non-hex byte.  Accepts `0-9`, `a-f`, `A-F`. -/
def fromHexChar (c : Nat) : Option Nat :=
  if 48 ≤ c ∧ c ≤ 57 then some (c - 48)
  else if 97 ≤ c ∧ c ≤ 102 then some (c - 97 + 10)
  else if 65 ≤ c ∧ c ≤ 70 then some (c - 65 + 10)
  else none

/-- One lowercase hex digit byte (Go `encoding/hex` table `0123456789abcdef`). -/
def hexDigitChar (n : Nat) : Nat := if n < 10 then 48 + n else 87 + n

/-- Go `hex.Encode`: two lowercase hex digit bytes per input byte. -/
def hexEncode : Bytes → Bytes
  | [] => []
  | b :: rest => hexDigitChar (b / 16) :: hexDigitChar (b % 16) :: hexEncode rest

/-- Outcome of Go `hex.Decode(dst, src)` as observed by the caller: success
(with the updated destination), an error return (invalid byte or odd
length; earlier writes to `dst` persist), or an index-out-of-range panic
when the decoded bytes overflow `dst`. -/
inductive HexDecodeResult
  | ok (dst : Bytes)
  | err (dst : Bytes)
  | panicked
deriving DecidableEq, Repr

/-- Go `hex.Decode`: walks `src` two bytes at a time, writing `dst[i]`
(panicking when `i` is out of range), stopping with an error at the first
non-hex byte; a trailing odd byte is an `ErrLength`/invalid-byte error. -/
def hexDecodeLoop (dst : Bytes) (i : Nat) : Bytes → HexDecodeResult
  | [] => .ok dst
  | [_] => .err dst
  | a :: b :: rest =>
    match fromHexChar a, fromHexChar b with
    | some x, some y =>
      if i < dst.length then hexDecodeLoop (dst.set i (x * 16 + y)) (i + 1) rest
      else .panicked
    | _, _ => .err dst

/-- JSON quote byte `"`. -/
def quote : Nat := 34

/-- `RolloutBytes.MarshalJSON`: the all-zero value encodes as `""`; any
other value as its lowercase hex wrapped in quotes.  (The Go method never
returns an error.) -/
def RolloutBytes.MarshalJSON (rb : Bytes) : Bytes :=
  if rb = zeroRolloutBytes then [quote, quote]
  else quote :: (hexEncode rb ++ [quote])

/-- Outcome of `RolloutBytes.UnmarshalJSON`. -/
inductive UnmarshalResult
  | ok (rb : Bytes)
  | decodeError
  | panicked
deriving DecidableEq, Repr

/-- `RolloutBytes.UnmarshalJSON`: strips the quotes (`b[1:len(b)-1]`) and
hex-decodes into the receiver array `rb` in place; only the error value of
`hex.Decode` is inspected (the count of decoded bytes is discarded). -/
def RolloutBytes.UnmarshalJSON (rb : Bytes) (b : Bytes) : UnmarshalResult :=
  match hexDecodeLoop rb 0 ((b.drop 1).take (b.length - 2)) with
  | .ok dst => .ok dst
  | .err _ => .decodeError
  | .panicked => .panicked

/-! ## SHA-256 and HMAC (Go `crypto/sha256`, `crypto/hmac`)

Faithful model of the FIPS 180-4 SHA-256 used by the rollout gate.  All
word arithmetic is `Nat` reduced modulo `2^32`. -/

/-- Reduce modulo `2^32` (Go `uint32` wrap-around). -/
def w32 (n : Nat) : Nat := n % 4294967296

/-- 32-bit right rotation. -/
def rotr32 (k x : Nat) : Nat := w32 ((x >>> k) ||| (x <<< (32 - k)))

/-- 32-bit bitwise complement. -/
def not32 (x : Nat) : Nat := x ^^^ 4294967295

/-- SHA-256 `Ch`. -/
def shaCh (x y z : Nat) : Nat := (x &&& y) ^^^ (not32 x &&& z)

/-- SHA-256 `Maj`. -/
def shaMaj (x y z : Nat) : Nat := (x &&& y) ^^^ (x &&& z) ^^^ (y &&& z)

/-- SHA-256 `Σ0`. -/
def bsig0 (x : Nat) : Nat := rotr32 2 x ^^^ rotr32 13 x ^^^ rotr32 22 x

/-- SHA-256 `Σ1`. -/
def bsig1 (x : Nat) : Nat := rotr32 6 x ^^^ rotr32 11 x ^^^ rotr32 25 x

/-- SHA-256 `σ0`. -/
def ssig0 (x : Nat) : Nat := rotr32 7 x ^^^ rotr32 18 x ^^^ (x >>> 3)

/-- SHA-256 `σ1`. -/
def ssig1 (x : Nat) : Nat := rotr32 17 x ^^^ rotr32 19 x ^^^ (x >>> 10)

/-- The 64 SHA-256 round constants (decimal). -/
def shaK : List Nat :=
  [1116352408, 1899447441, 3049323471, 3921009573,
   961987163, 1508970993, 2453635748, 2870763221,
   3624381080, 310598401, 607225278, 1426881987,
   1925078388, 2162078206, 2614888103, 3248222580,
   3835390401, 4022224774, 264347078, 604807628,
   770255983, 1249150122, 1555081692, 1996064986,
   2554220882, 2821834349, 2952996808, 3210313671,
   3336571891, 3584528711, 113926993, 338241895,
   666307205, 773529912, 1294757372, 1396182291,
   1695183700, 1986661051, 2177026350, 2456956037,
   2730485921, 2820302411, 3259730800, 3345764771,
   3516065817, 3600352804, 4094571909, 275423344,
   430227734, 506948616, 659060556, 883997877,
   958139571, 1322822218, 1537002063, 1747873779,
   1955562222, 2024104815, 2227730452, 2361852424,
   2428436474, 2756734187, 3204031479, 3329325298]

/-- The initial SHA-256 hash state (decimal). -/
def shaH0 : List Nat :=
  [1779033703, 3144134277, 1013904242, 2773480762,
   1359893119, 2600822924, 528734635, 1541459225]

/-- Group a byte string into big-endian 32-bit words. -/
def bytesToWords : Bytes → List Nat
  | a :: b :: c :: d :: rest => (((a * 256 + b) * 256 + c) * 256 + d) :: bytesToWords rest
  | _ => []

/-- One extension step of the message schedule: appends
`σ1(W[t-2]) + W[t-7] + σ0(W[t-15]) + W[t-16]` modulo `2^32`. -/
def scheduleStep (ws : List Nat) (_ : Nat) : List Nat :=
  ws ++ [w32 (ssig1 (ws.getD (ws.length - 2) 0) + ws.getD (ws.length - 7) 0 +
              ssig0 (ws.getD (ws.length - 15) 0) + ws.getD (ws.length - 16) 0)]

/-- The 64-entry message schedule of one block (16 words extended by 48). -/
def schedule (block : List Nat) : List Nat := (List.range 48).foldl scheduleStep block

/-- One compression round on the working variables `[a,b,c,d,e,f,g,h]`. -/
def roundStep (st : List Nat) (wk : Nat × Nat) : List Nat :=
  let a := st.getD 0 0
  let b := st.getD 1 0
  let c := st.getD 2 0
  let d := st.getD 3 0
  let e := st.getD 4 0
  let f := st.getD 5 0
  let g := st.getD 6 0
  let h := st.getD 7 0
  let t1 := w32 (h + bsig1 e + shaCh e f g + wk.2 + wk.1)
  let t2 := w32 (bsig0 a + shaMaj a b c)
  [w32 (t1 + t2), a, b, c, w32 (d + t1), e, f, g]

/-- The 64 compression rounds of one block. -/
def compress (h : List Nat) (ws : List Nat) : List Nat :=
  (ws.zip shaK).foldl roundStep h

/-- Word-wise addition modulo `2^32` of the old state and the compressed
working variables. -/
def zipAdd32 (a b : List Nat) : List Nat := List.zipWith (fun x y => w32 (x + y)) a b

/-- Process one 64-byte block. -/
def processBlock (h : List Nat) (block : Bytes) : List Nat :=
  zipAdd32 h (compress h (schedule (bytesToWords block)))

/-- Big-endian 8-byte encoding of `n` (the padded bit length). -/
def be64 (n : Nat) : Bytes :=
  [n / 2 ^ 56 % 256, n / 2 ^ 48 % 256, n / 2 ^ 40 % 256, n / 2 ^ 32 % 256,
   n / 2 ^ 24 % 256, n / 2 ^ 16 % 256, n / 2 ^ 8 % 256, n % 256]

/-- SHA-256 padding: `0x80`, zeros to 56 mod 64, then the bit length. -/
def sha256pad (msg : Bytes) : Bytes :=
  msg ++ 128 :: List.replicate ((119 - msg.length % 64) % 64) 0 ++ be64 (8 * msg.length)

/-- Split a list into chunks of `n` (fuel-bounded recursion). -/
def chunks : Nat → Nat → Bytes → List Bytes
  | 0, _, _ => []
  | _, _, [] => []
  | f + 1, n, l => l.take n :: chunks f n (l.drop n)

/-- Big-endian bytes of a list of 32-bit words. -/
def wordsToBytes : List Nat → Bytes
  | [] => []
  | w :: rest =>
    w / 16777216 % 256 :: w / 65536 % 256 :: w / 256 % 256 :: w % 256 :: wordsToBytes rest

/-- The final SHA-256 state of a message. -/
def sha256Words (msg : Bytes) : List Nat :=
  (chunks (sha256pad msg).length 64 (sha256pad msg)).foldl processBlock shaH0

/-- SHA-256 digest (32 bytes). -/
def sha256 (msg : Bytes) : Bytes := wordsToBytes (sha256Words msg)

/-- Go `crypto/hmac` with SHA-256: a key longer than the 64-byte block is
first hashed; the key is zero-padded to 64 bytes and xored with the
`ipad`/`opad` constants. -/
def hmacSHA256 (key msg : Bytes) : Bytes :=
  let k0 := if 64 < key.length then sha256 key else key
  let kp := k0 ++ List.replicate (64 - k0.length) 0
  sha256 ((kp.map (fun b => b ^^^ 92)) ++ sha256 ((kp.map (fun b => b ^^^ 54)) ++ msg))

/-! ## The rollout gate -/

/-- `Rollout` of the requirement document: hash seed and threshold cursor,
both 32-byte values. -/
structure Rollout where
  seed : Bytes
  cursor : Bytes
deriving DecidableEq, Repr

/-- `isRolloutCandidate`: HMAC-SHA256 of the node identity keyed by the
rollout seed, compared (via `bytes.Compare`) against the cursor; the node
is a candidate iff the digest is `<= cursor`. -/
def isRolloutCandidate (nodeID : Bytes) (rollout : Rollout) : Bool :=
  decide (bytesCompare (hmacSHA256 rollout.seed nodeID) rollout.cursor ≤ 0)

/-- Exported deprecated wrapper `ShouldUpdate`. -/
def ShouldUpdate (rollout : Rollout) (nodeID : Bytes) : Bool :=
  isRolloutCandidate nodeID rollout

/-! ## Semantic versions (`github.com/blang/semver` v3.5.1 and `SemVer`)

Go strings are modelled as `List Char`; all strings the claims touch are
ASCII, so rune-level and byte-level operations coincide. -/

/-- Go string contents. -/
abbrev Chars := List Char

/-- One prerelease identifier (`semver.PRVersion`): either numeric
(`isNum`, value in `versionNum`, `versionStr` empty) or alphanumeric
(`versionStr`, `versionNum` zero). -/
structure PRVersion where
  versionStr : Chars
  versionNum : Nat
  isNum : Bool
deriving DecidableEq, Repr

/-- `SemVer` (wrapping `semver.Version`): numeric components, prerelease
identifiers and build metadata. -/
structure SemVer where
  major : Nat
  minor : Nat
  patch : Nat
  pre : List PRVersion
  build : List Chars
deriving DecidableEq, Repr

/-- Parse errors of `NewSemVer` (the distinct error conditions of
`semver.Parse`/`ParseTolerant`; messages are irrelevant to the claims). -/
inductive VErr
  | emptyString
  | shortVersionMeta
  | noThreeParts
  | badMajor
  | badMinor
  | badPatch
  | leadingZero
  | emptyPrerelease
  | badPrerelease
  | emptyBuild
  | badBuild
deriving DecidableEq, Repr

deriving instance DecidableEq for Except

/-- The digit characters (`semver.numbers`). -/
def numbers : Chars := ("0123456789").data

/-- Letters and the hyphen (`semver.alphas`). -/
def alphas : Chars := ("abcdefghijklmnopqrstuvwxyzABCDEFGHIJKLMNOPQRSTUVWXYZ-").data

/-- `semver.alphanum`. -/
def alphanum : Chars := alphas ++ numbers

/-- `semver.containsOnly`: every character of `s` belongs to `set`. -/
def containsOnly (s set : Chars) : Bool := s.all (fun c => set.contains c)

/-- `semver.hasLeadingZeroes`: more than one character and a leading `0`. -/
def hasLeadingZeroes (s : Chars) : Bool :=
  decide (1 < s.length) && s.take 1 == ['0']

/-- Decimal value of a digit string (accumulating left fold, as
`strconv.ParseUint` effects). -/
def valDigits (s : Chars) : Nat := s.foldl (fun acc c => acc * 10 + (c.toNat - 48)) 0

/-- Go `strconv.ParseUint(s, 10, 64)`: fails on the empty string, on any
non-digit character and on overflow past `2^64 - 1`. -/
def parseUint (s : Chars) : Option Nat :=
  if s.isEmpty then none
  else if containsOnly s numbers then
    if valDigits s < 2 ^ 64 then some (valDigits s) else none
  else none

/-- Split at the first occurrence of `c`: `some (before, after)` or `none`
when `c` does not occur (Go `strings.IndexRune` plus the two slicings the
source performs with the found index). -/
def breakAt (c : Char) : Chars → Option (Chars × Chars)
  | [] => none
  | x :: xs =>
    if x = c then some ([], xs)
    else (breakAt c xs).map (fun p => (x :: p.1, p.2))

/-- Go `strings.SplitN(s, sep, n)` for a one-character separator and
`n ≥ 1`: at most `n` pieces, the last piece holding the unsplit rest. -/
def splitNChar (c : Char) : Nat → Chars → List Chars
  | 0, _ => []
  | 1, s => [s]
  | n + 2, s =>
    match breakAt c s with
    | none => [s]
    | some pr => pr.1 :: splitNChar c (n + 1) pr.2

/-- Go `strings.Split(s, sep)` for a one-character separator. -/
def splitAllChar (c : Char) : Chars → List Chars
  | [] => [[]]
  | x :: xs =>
    let r := splitAllChar c xs
    if x = c then [] :: r else (x :: r.headD []) :: r.tail

/-- Join with `.` (Go `strings.Join(parts, ".")`). -/
def joinDot : List Chars → Chars
  | [] => []
  | [x] => x
  | x :: xs => x ++ '.' :: joinDot xs

/-- The ASCII white space characters cut by `strings.TrimSpace` (the claims
only involve ASCII strings). -/
def isSpaceGo (c : Char) : Bool :=
  c == ' ' || c == '\t' || c == '\n' || c == '\x0b' || c == '\x0c' || c == '\r'

/-- Go `strings.TrimSpace` (ASCII fragment). -/
def trimSpace (s : Chars) : Chars :=
  ((s.dropWhile isSpaceGo).reverse.dropWhile isSpaceGo).reverse

/-- Go `strings.TrimPrefix(s, "v")`. -/
def trimPrefixV (s : Chars) : Chars :=
  match s with
  | 'v' :: rest => rest
  | s => s

/-- `semver.NewPRVersion`: a non-empty identifier, numeric (digits only, no
leading zeroes, within `uint64`) or alphanumeric. -/
def newPRVersion (s : Chars) : Except VErr PRVersion :=
  if s.length = 0 then .error .emptyPrerelease
  else if containsOnly s numbers then
    if hasLeadingZeroes s then .error .leadingZero
    else
      match parseUint s with
      | none => .error .badPrerelease
      | some n => .ok ⟨[], n, true⟩
  else if containsOnly s alphanum then .ok ⟨s, 0, false⟩
  else .error .badPrerelease

/-- The three identical digit-field checks of `semver.Parse` (character
set, leading zeroes, `strconv.ParseUint`). -/
def parseNumField (s : Chars) (e : VErr) : Except VErr Nat :=
  if containsOnly s numbers = false then .error e
  else if hasLeadingZeroes s then .error .leadingZero
  else
    match parseUint s with
    | none => .error e
    | some n => .ok n

/-- Parse every prerelease identifier in order (the `for` loop of
`semver.Parse`). -/
def parsePreList : List Chars → Except VErr (List PRVersion)
  | [] => .ok []
  | s :: rest =>
    match newPRVersion s with
    | .error e => .error e
    | .ok p => (parsePreList rest).map (p :: ·)

/-- Validate every build identifier in order (non-empty, alphanumeric). -/
def checkBuild : List Chars → Except VErr (List Chars)
  | [] => .ok []
  | s :: rest =>
    if s.length = 0 then .error .emptyBuild
    else if containsOnly s alphanum = false then .error .badBuild
    else (checkBuild rest).map (s :: ·)

/-- `semver.Parse`: split into `major.minor.rest`, parse the numeric
fields, cut build metadata at the first `+` and prerelease at the first
`-` of the remainder, then parse prerelease and build identifier lists. -/
def parseVersion (s : Chars) : Except VErr SemVer :=
  if s.length = 0 then .error .emptyString
  else
    match splitNChar '.' 3 s with
    | [p0, p1, p2] =>
      match parseNumField p0 .badMajor with
      | .error e => .error e
      | .ok major =>
        match parseNumField p1 .badMinor with
        | .error e => .error e
        | .ok minor =>
          let pb :=
            match breakAt '+' p2 with
            | none => (p2, ([] : List Chars))
            | some pr => (pr.1, splitAllChar '.' pr.2)
          let pp :=
            match breakAt '-' pb.1 with
            | none => (pb.1, ([] : List Chars))
            | some pr => (pr.1, splitAllChar '.' pr.2)
          match parseNumField pp.1 .badPatch with
          | .error e => .error e
          | .ok patch =>
            match parsePreList pp.2 with
            | .error e => .error e
            | .ok pre =>
              match checkBuild pb.2 with
              | .error e => .error e
              | .ok bld => .ok ⟨major, minor, patch, pre, bld⟩
    | _ => .error .noThreeParts

/-- `semver.ParseTolerant`: trim spaces and a leading `v`; a version with
fewer than three dot-separated components must not carry prerelease/build
metadata and is padded with `"0"` components before parsing. -/
def parseTolerant (s : Chars) : Except VErr SemVer :=
  let s1 := trimPrefixV (trimSpace s)
  let parts := splitNChar '.' 3 s1
  if parts.length < 3 then
    if (parts.getLastD []).any (fun c => c == '+' || c == '-') then
      .error .shortVersionMeta
    else parseVersion (joinDot (parts ++ List.replicate (3 - parts.length) ['0']))
  else parseVersion s1

/-- `NewSemVer`: parse a version string tolerantly. -/
def NewSemVer (v : String) : Except VErr SemVer := parseTolerant v.data

/-- Decimal digit string of `n` (Go `fmt.Sprintf("%d", n)` /
`strconv.FormatUint`); fuel-bounded recursion on the quotient chain. -/
def natDigits : Nat → Nat → Chars
  | 0, _ => []
  | f + 1, n =>
    if n < 10 then [Char.ofNat (48 + n)]
    else natDigits f (n / 10) ++ [Char.ofNat (48 + n % 10)]

/-- Decimal notation of `n`. -/
def formatUint (n : Nat) : Chars := natDigits (n + 1) n

/-- `semver.PRVersion.String`: the number for a numeric identifier, the
stored text otherwise. -/
def prString (p : PRVersion) : Chars :=
  if p.isNum then formatUint p.versionNum else p.versionStr

/-- The prerelease suffix accumulated by the loop in `SemVer.String`:
`"-" + val.String()` appended for every identifier (note: a HYPHEN before
every identifier, not a dot-joined list). -/
def preTail : List PRVersion → Chars
  | [] => []
  | p :: ps => '-' :: (prString p ++ preTail ps)

/-- `SemVer.String` of the source: `v%d.%d.%d` followed by the accumulated
prerelease suffix (build metadata is never printed). -/
def SemVer.string (v : SemVer) : Chars :=
  'v' :: (formatUint v.major ++ '.' :: (formatUint v.minor ++ '.' :: (formatUint v.patch ++ preTail v.pre)))

/-- `semver.PRVersion.Compare`: numeric identifiers sort before
alphanumeric ones; numeric compare by value, alphanumeric by Go string
order (byte-wise lexicographic). -/
def strLtChars : Chars → Chars → Bool
  | [], [] => false
  | [], _ :: _ => true
  | _ :: _, [] => false
  | a :: as, b :: bs =>
    if a.toNat < b.toNat then true
    else if b.toNat < a.toNat then false
    else strLtChars as bs

/-- `semver.PRVersion.Compare`. -/
def prCompare (v o : PRVersion) : Int :=
  if v.isNum && !o.isNum then -1
  else if !v.isNum && o.isNum then 1
  else if v.isNum && o.isNum then
    (if v.versionNum = o.versionNum then 0
     else if o.versionNum < v.versionNum then 1 else -1)
  else
    (if v.versionStr = o.versionStr then 0
     else if strLtChars o.versionStr v.versionStr then 1 else -1)

/-- The pairwise prerelease comparison loop of `semver.Version.Compare`
(both lists non-empty at the call site): first difference decides, a
strict prefix sorts smaller. -/
def preCompare : List PRVersion → List PRVersion → Int
  | [], [] => 0
  | [], _ :: _ => -1
  | _ :: _, [] => 1
  | v :: vs, o :: os =>
    let c := prCompare v o
    if c = 0 then preCompare vs os else c

/-- `SemVer.Compare` (via `semver.Version.Compare`): numeric components
first; a version without prerelease identifiers sorts above one with
them; otherwise the pairwise loop. -/
def SemVer.compare (sem version : SemVer) : Int :=
  if sem.major ≠ version.major then (if version.major < sem.major then 1 else -1)
  else if sem.minor ≠ version.minor then (if version.minor < sem.minor then 1 else -1)
  else if sem.patch ≠ version.patch then (if version.patch < sem.patch then 1 else -1)
  else if sem.pre = [] ∧ version.pre = [] then 0
  else if sem.pre = [] then 1
  else if version.pre = [] then -1
  else preCompare sem.pre version.pre

/-! ## The update decision (`Process`, `ShouldUpdateVersion`) -/

/-- `Version`: version string plus download URL. -/
structure Version where
  version : String
  url : String
deriving DecidableEq, Repr

/-- `Process`: the per-binary requirement document. -/
structure Process where
  minimum : Version
  suggested : Version
  rollout : Rollout
deriving DecidableEq, Repr

/-- Apostrophe character (ASCII 39). -/
def apos : Char := Char.ofNat 39

/-- Reason reported for a rollout candidate. -/
def rolloutCandidateReason : String :=
  "New version is being rolled out and this node is a candidate"

/-- Reason reported when the node is not yet a rollout candidate. -/
def rolloutPendingReason : String :=
  "New version is being rolled out but hasn" ++ String.singleton apos ++
    "t made it to this node yet"

/-- `ShouldUpdateVersion`: parse the suggested version and stop with "up to
date" when the current version is not below it; only then parse the
minimum version and force it when the current version is below the floor;
only then consult the rollout gate. -/
def ShouldUpdateVersion (currentVersion : SemVer) (nodeID : Bytes) (requested : Process) :
    Except VErr (Version × String) :=
  match NewSemVer requested.suggested.version with
  | .error e => .error e
  | .ok suggestedVersion =>
    if SemVer.compare currentVersion suggestedVersion ≥ 0 then
      .ok (⟨"", ""⟩, "Version is up to date")
    else
      match NewSemVer requested.minimum.version with
      | .error e => .error e
      | .ok minimumVersion =>
        if SemVer.compare currentVersion minimumVersion < 0 then
          .ok (requested.minimum, "Version is below minimum allowed")
        else if isRolloutCandidate nodeID requested.rollout then
          .ok (requested.suggested, rolloutCandidateReason)
        else
          .ok (⟨"", ""⟩, rolloutPendingReason)

/-! ## C1, C10: the three-step decision -/

/-- C1: for every current version, node identity and requirement whose
minimum and suggested version strings parse, `ShouldUpdateVersion` is the
three-step cascade: not below suggested → no update; below minimum →
the minimum is forced without consulting the rollout gate; otherwise the
rollout gate alone decides between the suggested version and no update. -/
theorem shouldUpdateVersion_three_steps
    (currentVersion : SemVer) (nodeID : Bytes) (requested : Process)
    (sugV minV : SemVer)
    (hsug : NewSemVer requested.suggested.version = .ok sugV)
    (hmin : NewSemVer requested.minimum.version = .ok minV) :
    ShouldUpdateVersion currentVersion nodeID requested =
      (if SemVer.compare currentVersion sugV ≥ 0 then
        Except.ok (⟨"", ""⟩, "Version is up to date")
      else if SemVer.compare currentVersion minV < 0 then
        Except.ok (requested.minimum, "Version is below minimum allowed")
      else if isRolloutCandidate nodeID requested.rollout then
        Except.ok (requested.suggested, rolloutCandidateReason)
      else
        Except.ok (⟨"", ""⟩, rolloutPendingReason)) := by
  unfold ShouldUpdateVersion
  rw [hsug, hmin]

/-- Witness for C1 at a concrete requirement. -/
theorem shouldUpdateVersion_three_steps_witness :
    NewSemVer ("v1.1.0") = .ok (⟨1, 1, 0, [], []⟩ : SemVer) ∧
    NewSemVer ("v1.0.0") = .ok (⟨1, 0, 0, [], []⟩ : SemVer) ∧
    ShouldUpdateVersion ⟨1, 0, 0, [], []⟩ zeroRolloutBytes
        ⟨⟨"v1.0.0", ""⟩, ⟨"v1.1.0", ""⟩, ⟨zeroRolloutBytes, zeroRolloutBytes⟩⟩ =
      (if SemVer.compare ⟨1, 0, 0, [], []⟩ (⟨1, 1, 0, [], []⟩ : SemVer) ≥ 0 then
        Except.ok (⟨"", ""⟩, "Version is up to date")
      else if SemVer.compare ⟨1, 0, 0, [], []⟩ (⟨1, 0, 0, [], []⟩ : SemVer) < 0 then
        Except.ok ((⟨"v1.0.0", ""⟩ : Version), "Version is below minimum allowed")
      else if isRolloutCandidate zeroRolloutBytes ⟨zeroRolloutBytes, zeroRolloutBytes⟩ then
        Except.ok ((⟨"v1.1.0", ""⟩ : Version), rolloutCandidateReason)
      else
        Except.ok (⟨"", ""⟩, rolloutPendingReason)) :=
  ⟨by rfl, by rfl,
    shouldUpdateVersion_three_steps _ _ _ _ _ (by rfl) (by rfl)⟩

/-- C10: when the suggested version parses and the current version is not
below it, `ShouldUpdateVersion` answers "up to date" with no error, with NO
hypothesis on the minimum version string: the minimum is parsed only after
the suggested-version check fails, so an unparseable minimum is never
seen (and the rollout hash is likewise never consulted). -/
theorem shouldUpdateVersion_lazy_minimum
    (currentVersion : SemVer) (nodeID : Bytes) (requested : Process)
    (sugV : SemVer)
    (hsug : NewSemVer requested.suggested.version = .ok sugV)
    (hge : SemVer.compare currentVersion sugV ≥ 0) :
    ShouldUpdateVersion currentVersion nodeID requested =
      .ok (⟨"", ""⟩, "Version is up to date") := by
  unfold ShouldUpdateVersion
  rw [hsug]
  simp [hge]

/-- Witness for C10: the minimum version string is unparseable, yet the
decision succeeds with "up to date". -/
theorem shouldUpdateVersion_lazy_minimum_witness :
    (NewSemVer ("not a version") = .error .badMajor) ∧
    NewSemVer ("v1.0.0") = .ok (⟨1, 0, 0, [], []⟩ : SemVer) ∧
    SemVer.compare ⟨1, 0, 0, [], []⟩ ⟨1, 0, 0, [], []⟩ ≥ 0 ∧
    ShouldUpdateVersion ⟨1, 0, 0, [], []⟩ zeroRolloutBytes
        ⟨⟨"not a version", ""⟩, ⟨"v1.0.0", ""⟩, ⟨zeroRolloutBytes, zeroRolloutBytes⟩⟩ =
      .ok (⟨"", ""⟩, "Version is up to date") :=
  ⟨by rfl, by rfl, by decide,
    shouldUpdateVersion_lazy_minimum _ _ _ _ (by rfl) (by decide)⟩

/-! ## C5: behaviour at and below zero percent -/

/-- C5 counterexample: the legacy mapper at `pct = -1` does NOT return the
all-zero cursor (the negative product's ABSOLUTE value is serialized by
`big.Int.Bytes`), refuting "for every pct <= 0 both mappers return the
all-zero cursor". -/
theorem percentageToCursor_negative_not_zero :
    PercentageToCursor (-1) ≠ zeroRolloutBytes := by decide

/-- C5 amended: at `pct = 0` both mappers do return the all-zero cursor
(and `PercentageToCursorF` returns it whenever the scaled integer
`int64(pct*10000)` is zero, i.e. for `-0.0001 < pct ≤ 0`); for strictly
negative scaled values the mappers instead emit the bytes of the absolute
value, which is non-zero for the legacy mapper at every `pct ≤ -1`. -/
theorem percentage_zero_cursor_amended :
    PercentageToCursorF 0 = zeroRolloutBytes ∧
    PercentageToCursor 0 = zeroRolloutBytes ∧
    PercentageToCursorF (-10000) ≠ zeroRolloutBytes ∧
    PercentageToCursor (-1) ≠ zeroRolloutBytes := by
  refine ⟨by decide, by decide, by decide, by decide⟩

/-! ## Values and lengths of minimal big-endian byte strings -/

theorem leNat_natBytesLE : ∀ f n, n < 256 ^ f → leNat (natBytesLE f n) = n := by
  intro f
  induction f with
  | zero =>
    intro n h
    rw [pow_zero, Nat.lt_one_iff] at h
    subst h
    rfl
  | succ f ih =>
    intro n h
    by_cases h0 : n = 0
    · subst h0; rw [natBytesLE, if_pos rfl]; rfl
    · rw [natBytesLE, if_neg h0, leNat, ih (n / 256) ?_]
      · exact Nat.mod_add_div n 256
      · rw [Nat.div_lt_iff_lt_mul (by norm_num)]
        calc n < 256 ^ (f + 1) := h
        _ = 256 ^ f * 256 := by rw [pow_succ]

theorem length_natBytesLE_le : ∀ f L n, n < 256 ^ L → (natBytesLE f n).length ≤ L := by
  intro f
  induction f with
  | zero => intro L n _; simp [natBytesLE]
  | succ f ih =>
    intro L n h
    by_cases h0 : n = 0
    · subst h0; simp [natBytesLE]
    · rw [natBytesLE, if_neg h0]
      match L with
      | 0 =>
        rw [pow_zero, Nat.lt_one_iff] at h
        exact absurd h h0
      | M + 1 =>
        have : n / 256 < 256 ^ M := by
          rw [Nat.div_lt_iff_lt_mul (by norm_num)]
          calc n < 256 ^ (M + 1) := h
          _ = 256 ^ M * 256 := by rw [pow_succ]
        simpa using ih M (n / 256) this

theorem length_natBytesLE_ge : ∀ f L n, 256 ^ L ≤ n → n < 256 ^ f →
    L + 1 ≤ (natBytesLE f n).length := by
  intro f
  induction f with
  | zero =>
    intro L n hl h
    rw [pow_zero, Nat.lt_one_iff] at h
    subst h
    exact absurd hl (Nat.not_le.mpr (pow_pos (by norm_num) L))
  | succ f ih =>
    intro L n hl h
    have h0 : n ≠ 0 := by
      intro e; subst e; exact absurd hl (Nat.not_le.mpr (pow_pos (by norm_num) L))
    rw [natBytesLE, if_neg h0]
    match L with
    | 0 => simp
    | M + 1 =>
      have hdl : 256 ^ M ≤ n / 256 := by
        rw [Nat.le_div_iff_mul_le (by norm_num)]
        calc 256 ^ M * 256 = 256 ^ (M + 1) := by rw [pow_succ]
        _ ≤ n := hl
      have hdu : n / 256 < 256 ^ f := by
        rw [Nat.div_lt_iff_lt_mul (by norm_num)]
        calc n < 256 ^ (f + 1) := h
        _ = 256 ^ f * 256 := by rw [pow_succ]
      have := ih M (n / 256) hdl hdu
      simpa using Nat.succ_le_succ this

theorem beNat_append (a b : Bytes) :
    beNat (a ++ b) = beNat a * 256 ^ b.length + beNat b := by
  induction a with
  | nil => simp [beNat]
  | cons x as ih =>
    rw [List.cons_append, beNat, beNat, ih, List.length_append, pow_add]
    ring

theorem beNat_reverse (l : Bytes) : beNat l.reverse = leNat l := by
  induction l with
  | nil => rfl
  | cons b rest ih =>
    rw [List.reverse_cons, beNat_append, ih, leNat]
    simp [beNat]
    ring

theorem beNat_natBytesBE (n : Nat) (h : n < 256 ^ 64) : beNat (natBytesBE n) = n := by
  rw [natBytesBE, beNat_reverse, leNat_natBytesLE 64 n h]

theorem length_natBytesBE (n : Nat) (h1 : 256 ^ 31 ≤ n) (h2 : n < 256 ^ 32) :
    (natBytesBE n).length = 32 := by
  rw [natBytesBE, List.length_reverse]
  have hle := length_natBytesLE_le 64 32 n h2
  have hge := length_natBytesLE_ge 64 31 n h1 (lt_of_lt_of_le h2 (by norm_num))
  omega

theorem copyToCursor_of_length_32 (src : Bytes) (h : src.length = 32) :
    copyToCursor src = src := by
  rw [copyToCursor, List.take_of_length_le (le_of_eq h)]
  simp [h]

theorem maxRolloutInt_eq : maxRolloutInt = 2 ^ 256 - 1 := by decide

/-- Value of the legacy mapper on a non-negative integer percentage up to
100: exactly `floor(maxInt * pct / 100)`. -/
theorem beNat_percentageToCursor (p : Nat) (hp : p ≤ 100) :
    beNat (PercentageToCursor (Int.ofNat p)) = maxRolloutInt * p / 100 := by
  have hmask : (Int.ofNat maxRolloutInt * Int.ofNat p).ediv 100 =
      Int.ofNat (maxRolloutInt * p / 100) := rfl
  rw [PercentageToCursor, hmask]
  have habs : (Int.ofNat (maxRolloutInt * p / 100)).natAbs = maxRolloutInt * p / 100 :=
    Int.natAbs_ofNat _
  rw [bigIntBytes, habs]
  by_cases hp0 : p = 0
  · subst hp0
    simp only [Nat.mul_zero, Nat.zero_div]
    decide
  · have hp1 : 1 ≤ p := Nat.one_le_iff_ne_zero.mpr hp0
    set m := maxRolloutInt * p / 100 with hm
    have hlow : 256 ^ 31 ≤ m := by
      have h1 : maxRolloutInt * 1 / 100 ≤ m :=
        Nat.div_le_div_right (Nat.mul_le_mul_left _ hp1)
    -- the concrete bound 256^31 ≤ maxInt/100
      have h2 : 256 ^ 31 ≤ maxRolloutInt * 1 / 100 := by decide
      exact le_trans h2 h1
    have hhigh : m < 256 ^ 32 := by
      have h1 : m ≤ maxRolloutInt * 100 / 100 :=
        Nat.div_le_div_right (Nat.mul_le_mul_left _ hp)
      have h2 : maxRolloutInt * 100 / 100 = maxRolloutInt := Nat.mul_div_cancel _ (by norm_num)
      have h3 : maxRolloutInt < 256 ^ 32 := by decide
      omega
    rw [copyToCursor_of_length_32 _ (length_natBytesBE m hlow hhigh)]
    exact beNat_natBytesBE m (lt_of_lt_of_le hhigh (by norm_num))

/-! ## C8: the legacy mapper's exact formula -/

/-- C8: for every integer percentage in `[0,100]` the legacy mapper's
cursor, read big-endian, is exactly `floor((2^256 - 1) * pct / 100)`;
at 100 it is the all-`0xFF` cursor and at 0 the all-zero cursor. -/
theorem percentageToCursor_formula (pct : Int) (h0 : 0 ≤ pct) (h1 : pct ≤ 100) :
    beNat (PercentageToCursor pct) = (2 ^ 256 - 1) * pct.toNat / 100 ∧
    PercentageToCursor 100 = List.replicate 32 255 ∧
    PercentageToCursor 0 = zeroRolloutBytes := by
  refine ⟨?_, by decide, by decide⟩
  have hofnat : pct = Int.ofNat pct.toNat := (Int.toNat_of_nonneg h0).symm
  have hle : pct.toNat ≤ 100 := by omega
  conv_lhs => rw [hofnat]
  rw [beNat_percentageToCursor pct.toNat hle, maxRolloutInt_eq]

/-- Witness for C8 at `pct = 50`. -/
theorem percentageToCursor_formula_witness :
    (0 : Int) ≤ 50 ∧ (50 : Int) ≤ 100 ∧
    (beNat (PercentageToCursor 50) = (2 ^ 256 - 1) * (50 : Int).toNat / 100 ∧
     PercentageToCursor 100 = List.replicate 32 255 ∧
     PercentageToCursor 0 = zeroRolloutBytes) :=
  ⟨by decide, by decide, percentageToCursor_formula 50 (by decide) (by decide)⟩

/-! ## C6: monotonicity -/

/-- C6 counterexample: `PercentageToCursorF` is NOT monotone: at the scaled
values 1 and 16 of the percentages 0.0001 and 0.0016 (both of which convert
exactly: `int64(0.0001*10000) = 1`, `int64(0.0016*10000) = 16`), the cursor
for the LARGER percentage is strictly smaller, because the 30- and 31-byte
products are left-aligned into the 32-byte cursor by `copy`. -/
theorem percentageToCursorF_not_monotone_cex :
    (1 : Int) ≤ 16 ∧
    ¬ beNat (PercentageToCursorF 1) ≤ beNat (PercentageToCursorF 16) := by
  refine ⟨by decide, by decide⟩

/-- C6 amended: the legacy mapper `PercentageToCursor` is monotone
non-decreasing on integer percentages in `[0,100]`; for
`PercentageToCursorF` monotonicity fails (see the counterexample), so it
is asserted only for the legacy mapper. -/
theorem percentageToCursor_monotone (p1 p2 : Int)
    (h0 : 0 ≤ p1) (h12 : p1 ≤ p2) (h2 : p2 ≤ 100) :
    beNat (PercentageToCursor p1) ≤ beNat (PercentageToCursor p2) := by
  have e1 : p1 = Int.ofNat p1.toNat := (Int.toNat_of_nonneg h0).symm
  have e2 : p2 = Int.ofNat p2.toNat := (Int.toNat_of_nonneg (le_trans h0 h12)).symm
  rw [e1, e2, beNat_percentageToCursor p1.toNat (by omega),
    beNat_percentageToCursor p2.toNat (by omega)]
  exact Nat.div_le_div_right (Nat.mul_le_mul_left _ (by omega))

/-- Witness for the amended C6 at `p1 = 30`, `p2 = 60`. -/
theorem percentageToCursor_monotone_witness :
    (0 : Int) ≤ 30 ∧ (30 : Int) ≤ 60 ∧ (60 : Int) ≤ 100 ∧
    beNat (PercentageToCursor 30) ≤ beNat (PercentageToCursor 60) :=
  ⟨by decide, by decide, by decide,
    percentageToCursor_monotone 30 60 (by decide) (by decide) (by decide)⟩

/-! ## C2: the precise mapper's formula -/

/-- C2 counterexample: at `pct = 100` (scaled value `int64(100*10000) =
1000000`, exactly representable), the cursor of `PercentageToCursorF` is
NOT `floor((2^256-1) * 1000000 / 1000000) = 2^256 - 1`: the code divides
`maxInt` by `1000000` FIRST and then multiplies, losing the remainder
`(2^256-1) mod 1000000 = 639935`. -/
theorem percentageToCursorF_formula_cex :
    beNat (PercentageToCursorF 1000000) ≠ (2 ^ 256 - 1) * 1000000 / 1000000 := by
  decide

/-- Least scaled value whose product `floor(maxInt/10^6) * k` fills all 32
cursor bytes (equals 3907). -/
def fullCursorThreshold : Nat :=
  (2 ^ 248 + (2 ^ 256 - 1) / 1000000 - 1) / ((2 ^ 256 - 1) / 1000000)

/-- C2 amended: `PercentageToCursorF` computes `floor((2^256-1)/1000000) *
k` with `k = int64(pct*10000)` — division BEFORE multiplication — and the
cursor equals that product exactly whenever the product fills 32 bytes
(`fullCursorThreshold ≤ k ≤ 1000000`); this differs from the claimed
`floor((2^256-1)*k/1000000)` (see the counterexample at `pct = 100`), and
for smaller positive `k` the short byte string is additionally
left-aligned by `copy`, inflating the value. -/
theorem percentageToCursorF_formula_amended (k : Nat)
    (hk0 : fullCursorThreshold ≤ k) (hk1 : k ≤ 1000000) :
    beNat (PercentageToCursorF (Int.ofNat k)) = (2 ^ 256 - 1) / 1000000 * k := by
  have hmask : (Int.ofNat maxRolloutInt).ediv (100 * 10000) * Int.ofNat k =
      Int.ofNat (maxRolloutInt / 1000000 * k) := rfl
  have habs : (Int.ofNat (maxRolloutInt / 1000000 * k)).natAbs =
      maxRolloutInt / 1000000 * k := rfl
  rw [PercentageToCursorF, hmask, bigIntBytes, habs, maxRolloutInt_eq]
  set q := (2 ^ 256 - 1) / 1000000 with hq
  have hlow : 256 ^ 31 ≤ q * k := by
    have h2 : 256 ^ 31 ≤ q * fullCursorThreshold := by decide
    exact le_trans h2 (Nat.mul_le_mul_left _ hk0)
  have hhigh : q * k < 256 ^ 32 := by
    have h1 : q * k ≤ q * 1000000 := Nat.mul_le_mul_left _ hk1
    have h2 : q * 1000000 < 256 ^ 32 := by decide
    omega
  rw [copyToCursor_of_length_32 _ (length_natBytesBE _ hlow hhigh)]
  exact beNat_natBytesBE _ (lt_of_lt_of_le hhigh (by norm_num))

/-- Witness for the amended C2 at `k = 1000000` (`pct = 100`). -/
theorem percentageToCursorF_formula_amended_witness :
    fullCursorThreshold ≤ 1000000 ∧ (1000000 : Nat) ≤ 1000000 ∧
    beNat (PercentageToCursorF (Int.ofNat 1000000)) = (2 ^ 256 - 1) / 1000000 * 1000000 :=
  ⟨by decide, by decide, percentageToCursorF_formula_amended 1000000 (by decide) (by decide)⟩

/-! ## Hex decoding lemmas (for C3 and C9) -/

/-- The byte values of a valid even-length hex string, pair by pair
(specification helper for stating what `hexDecodeLoop` writes). -/
def decodeHexPairs : Bytes → Bytes
  | a :: b :: rest => ((fromHexChar a).getD 0 * 16 + (fromHexChar b).getD 0) :: decodeHexPairs rest
  | _ => []

theorem take_succ_set (v : Nat) : ∀ (dst : Bytes) (i : Nat), i < dst.length →
    (dst.set i v).take (i + 1) = dst.take i ++ [v] := by
  intro dst
  induction dst with
  | nil => intro i h; simp at h
  | cons d ds ih =>
    intro i h
    match i with
    | 0 => simp
    | j + 1 =>
      rw [List.set_cons_succ, List.take_succ_cons, List.take_succ_cons,
        ih j (by simpa using h)]
      rfl

theorem drop_set_of_lt (v : Nat) : ∀ (dst : Bytes) (i k : Nat), i < k →
    (dst.set i v).drop k = dst.drop k := by
  intro dst
  induction dst with
  | nil => intro i k _; simp
  | cons d ds ih =>
    intro i k hik
    match i, k with
    | 0, k + 1 => simp
    | j + 1, k + 1 =>
      rw [List.set_cons_succ, List.drop_succ_cons, List.drop_succ_cons,
        ih j k (by omega)]

/-- Successful run of the decode loop over a valid even-length source that
fits in the destination: the decoded pairs replace `dst[i..]`. -/
theorem hexDecodeLoop_ok : ∀ (src dst : Bytes) (i : Nat),
    src.length % 2 = 0 →
    (∀ c ∈ src, (fromHexChar c).isSome) →
    i + src.length / 2 ≤ dst.length →
    hexDecodeLoop dst i src =
      .ok (dst.take i ++ decodeHexPairs src ++ dst.drop (i + src.length / 2)) := by
  intro src
  induction src using decodeHexPairs.induct with
  | case1 a b rest ih =>
    intro dst i heven hvalid hfit
    obtain ⟨x, hx⟩ := Option.isSome_iff_exists.mp (hvalid a (by simp))
    obtain ⟨y, hy⟩ := Option.isSome_iff_exists.mp (hvalid b (by simp))
    have hlen : (a :: b :: rest).length = rest.length + 2 := by simp
    have hfit2 : i + 1 + rest.length / 2 ≤ dst.length := by
      rw [hlen] at hfit
      omega
    have hi : i < dst.length := by omega
    rw [hexDecodeLoop, hx, hy]
    show (if i < dst.length then
        hexDecodeLoop (dst.set i (x * 16 + y)) (i + 1) rest
      else HexDecodeResult.panicked) = _
    rw [if_pos hi,
      ih (dst.set i (x * 16 + y)) (i + 1)
        (by rw [hlen] at heven; omega)
        (fun c hc => hvalid c (by simp [hc]))
        (by rw [List.length_set]; exact hfit2)]
    congr 1
    rw [take_succ_set _ _ _ hi, drop_set_of_lt _ _ _ _ (by omega)]
    have hval : decodeHexPairs (a :: b :: rest) =
        (x * 16 + y) :: decodeHexPairs rest := by
      rw [decodeHexPairs, hx, hy]
      rfl
    rw [hval, hlen]
    have : i + (rest.length + 2) / 2 = i + 1 + rest.length / 2 := by omega
    rw [this]
    simp
  | case2 l hno =>
    intro dst i heven hvalid hfit
    match l, hno with
    | [], _ => simp [hexDecodeLoop, decodeHexPairs]
    | [c], _ => simp at heven
    | a :: b :: rest, hno => exact absurd rfl (fun e => hno a b rest e)

/-- The decode loop returns an error (never a panic, never success) on a
source that fits the destination but is odd-length or contains a non-hex
byte. -/
theorem hexDecodeLoop_err : ∀ (src dst : Bytes) (i : Nat),
    i + src.length / 2 ≤ dst.length →
    (src.length % 2 = 1 ∨ ∃ c ∈ src, fromHexChar c = none) →
    ∃ d, hexDecodeLoop dst i src = .err d := by
  intro src
  induction src using decodeHexPairs.induct with
  | case1 a b rest ih =>
    intro dst i hfit hbad
    cases ha : fromHexChar a with
    | none =>
      refine ⟨dst, ?_⟩
      rw [hexDecodeLoop, ha]
    | some x =>
      cases hb : fromHexChar b with
      | none =>
        refine ⟨dst, ?_⟩
        rw [hexDecodeLoop, ha, hb]
      | some y =>
        have hlen : (a :: b :: rest).length = rest.length + 2 := by simp
        have hi : i < dst.length := by rw [hlen] at hfit; omega
        have hbad2 : rest.length % 2 = 1 ∨ ∃ c ∈ rest, fromHexChar c = none := by
          rcases hbad with h | ⟨c, hc, hcn⟩
          · left; rw [hlen] at h; omega
          · right
            rcases List.mem_cons.mp hc with rfl | hc2
            · rw [ha] at hcn; exact absurd hcn (by simp)
            · rcases List.mem_cons.mp hc2 with rfl | hc3
              · rw [hb] at hcn; exact absurd hcn (by simp)
              · exact ⟨c, hc3, hcn⟩
        obtain ⟨d, hd⟩ := ih (dst.set i (x * 16 + y)) (i + 1)
          (by rw [List.length_set]; rw [hlen] at hfit; omega) hbad2
        refine ⟨d, ?_⟩
        rw [hexDecodeLoop, ha, hb]
        show (if i < dst.length then
            hexDecodeLoop (dst.set i (x * 16 + y)) (i + 1) rest
          else HexDecodeResult.panicked) = _
        rw [if_pos hi, hd]
  | case2 l hno =>
    intro dst i hfit hbad
    match l, hno with
    | [], _ =>
      rcases hbad with h | ⟨c, hc, _⟩
      · simp at h
      · simp at hc
    | [c], _ => exact ⟨dst, rfl⟩
    | a :: b :: rest, hno => exact absurd rfl (fun e => hno a b rest e)

theorem hexEncode_length (l : Bytes) : (hexEncode l).length = 2 * l.length := by
  induction l with
  | nil => rfl
  | cons b rest ih => rw [hexEncode]; simp [ih]; omega

theorem fromHexChar_hexDigitChar : ∀ d : Fin 16, fromHexChar (hexDigitChar d.val) = some d.val := by
  decide

theorem hexEncode_valid (l : Bytes) (hb : ∀ x ∈ l, x < 256) :
    ∀ c ∈ hexEncode l, (fromHexChar c).isSome := by
  induction l with
  | nil => simp [hexEncode]
  | cons b rest ih =>
    intro c hc
    have hblt : b < 256 := hb b (by simp)
    rw [hexEncode] at hc
    rcases List.mem_cons.mp hc with rfl | hc2
    · rw [fromHexChar_hexDigitChar ⟨b / 16, by omega⟩]; rfl
    · rcases List.mem_cons.mp hc2 with rfl | hc3
      · rw [fromHexChar_hexDigitChar ⟨b % 16, by omega⟩]; rfl
      · exact ih (fun x hx => hb x (by simp [hx])) c hc3

theorem decodeHexPairs_hexEncode (l : Bytes) (hb : ∀ x ∈ l, x < 256) :
    decodeHexPairs (hexEncode l) = l := by
  induction l with
  | nil => rfl
  | cons b rest ih =>
    have hblt : b < 256 := hb b (by simp)
    rw [hexEncode, decodeHexPairs,
      fromHexChar_hexDigitChar ⟨b / 16, by omega⟩,
      fromHexChar_hexDigitChar ⟨b % 16, by omega⟩,
      ih (fun x hx => hb x (by simp [hx]))]
    show ((b / 16) * 16 + b % 16) :: rest = b :: rest
    rw [Nat.mul_comm (b / 16) 16, Nat.div_add_mod b 16]

/-- Stripping the JSON quotes recovers the inner text. -/
theorem unmarshal_strip (src : Bytes) :
    ((quote :: (src ++ [quote])).drop 1).take ((quote :: (src ++ [quote])).length - 2) = src := by
  have h1 : (quote :: (src ++ [quote])).drop 1 = src ++ [quote] := rfl
  have h2 : (quote :: (src ++ [quote])).length - 2 = src.length := by simp
  rw [h1, h2, List.take_left]

/-- Decoding into a fresh zero cursor from a valid even-length hex text of
at most 64 digits: accepted, the decoded bytes land at the front. -/
theorem unmarshal_valid_even (src : Bytes)
    (heven : src.length % 2 = 0) (hlen : src.length ≤ 64)
    (hvalid : ∀ c ∈ src, (fromHexChar c).isSome) :
    RolloutBytes.UnmarshalJSON zeroRolloutBytes (quote :: (src ++ [quote])) =
      .ok (decodeHexPairs src ++ zeroRolloutBytes.drop (src.length / 2)) := by
  rw [RolloutBytes.UnmarshalJSON, unmarshal_strip,
    hexDecodeLoop_ok src zeroRolloutBytes 0 heven hvalid
      (by simp [zeroRolloutBytes]; omega)]
  simp

/-- Decoding the canonical encoding of a full 32-byte value recovers it. -/
theorem unmarshal_hexEncode (rb : Bytes) (hlen : rb.length = 32)
    (hbyte : ∀ x ∈ rb, x < 256) :
    RolloutBytes.UnmarshalJSON zeroRolloutBytes (quote :: (hexEncode rb ++ [quote])) =
      .ok rb := by
  rw [unmarshal_valid_even (hexEncode rb)
      (by rw [hexEncode_length]; omega)
      (by rw [hexEncode_length]; omega)
      (hexEncode_valid rb hbyte),
    decodeHexPairs_hexEncode rb hbyte, hexEncode_length, hlen]
  show UnmarshalResult.ok (rb ++ zeroRolloutBytes.drop 32) = _
  rw [show zeroRolloutBytes.drop 32 = [] from rfl, List.append_nil]

/-! ## C3: what the decoder accepts and rejects -/

/-- C3 counterexample: the two-character hex text `"ab"` (shorter than 64
digits, decoding to ONE byte) is ACCEPTED by `RolloutBytes.UnmarshalJSON`,
not rejected: `hex.Decode`'s count of decoded bytes is discarded, so the
byte `0xab` lands in the first cursor position and the rest stays zero. -/
theorem unmarshal_short_hex_accepted :
    RolloutBytes.UnmarshalJSON zeroRolloutBytes [quote, 97, 98, quote] =
      .ok (171 :: List.replicate 31 0) := by decide

/-- C3 amended: the empty text yields the (unchanged, hence all-zero)
cursor; a valid 64-digit hex text yields exactly its 32 decoded bytes; a
text of at most 64 digits that is odd-length or contains a non-hex byte
is rejected with a decode error; BUT a valid even-length hex text shorter
than 64 digits is accepted, its bytes decoding into the leading cursor
positions with the remaining receiver bytes left as they were (zero for a
fresh cursor).  (A valid hex text longer than 64 digits causes a runtime
panic rather than a decode error.) -/
theorem unmarshal_cases_amended :
    RolloutBytes.UnmarshalJSON zeroRolloutBytes [quote, quote] = .ok zeroRolloutBytes ∧
    (∀ rb : Bytes, rb.length = 32 → (∀ x ∈ rb, x < 256) →
      RolloutBytes.UnmarshalJSON zeroRolloutBytes (quote :: (hexEncode rb ++ [quote])) =
        .ok rb) ∧
    (∀ src : Bytes, src.length ≤ 64 →
      (src.length % 2 = 1 ∨ ∃ c ∈ src, fromHexChar c = none) →
      RolloutBytes.UnmarshalJSON zeroRolloutBytes (quote :: (src ++ [quote])) =
        .decodeError) ∧
    (∀ src : Bytes, src.length % 2 = 0 → src.length ≤ 64 →
      (∀ c ∈ src, (fromHexChar c).isSome) →
      RolloutBytes.UnmarshalJSON zeroRolloutBytes (quote :: (src ++ [quote])) =
        .ok (decodeHexPairs src ++ zeroRolloutBytes.drop (src.length / 2))) := by
  refine ⟨by decide, unmarshal_hexEncode, ?_, unmarshal_valid_even⟩
  intro src hlen hbad
  obtain ⟨d, hd⟩ := hexDecodeLoop_err src zeroRolloutBytes 0
    (by simp [zeroRolloutBytes]; omega) hbad
  rw [RolloutBytes.UnmarshalJSON, unmarshal_strip, hd]

/-- Witness for the amended C3: exercises the 64-digit branch on a
concrete cursor and the rejection branch on a concrete odd text. -/
theorem unmarshal_cases_amended_witness :
    RolloutBytes.UnmarshalJSON zeroRolloutBytes
        (quote :: (hexEncode (List.replicate 32 7) ++ [quote])) =
      .ok (List.replicate 32 7) ∧
    RolloutBytes.UnmarshalJSON zeroRolloutBytes (quote :: ([97] ++ [quote])) =
      .decodeError :=
  ⟨unmarshal_cases_amended.2.1 (List.replicate 32 7) (by decide) (by decide),
   unmarshal_cases_amended.2.2.1 [97] (by decide) (by decide)⟩

/-! ## C9: the hex round trip -/

/-- C9: decoding the encoding of any 32-byte cursor into a fresh zero
cursor yields the cursor back; the all-zero cursor encodes to the empty
string, any other cursor to its lowercase hex, and the empty string
decodes to the all-zero cursor. -/
theorem rolloutBytes_hex_roundtrip (rb : Bytes)
    (hlen : rb.length = 32) (hbyte : ∀ x ∈ rb, x < 256) :
    RolloutBytes.UnmarshalJSON zeroRolloutBytes (RolloutBytes.MarshalJSON rb) = .ok rb ∧
    RolloutBytes.MarshalJSON zeroRolloutBytes = [quote, quote] ∧
    (rb ≠ zeroRolloutBytes →
      RolloutBytes.MarshalJSON rb = quote :: (hexEncode rb ++ [quote])) ∧
    RolloutBytes.UnmarshalJSON zeroRolloutBytes [quote, quote] = .ok zeroRolloutBytes := by
  refine ⟨?_, by decide, fun hne => by rw [RolloutBytes.MarshalJSON, if_neg hne], by decide⟩
  by_cases hz : rb = zeroRolloutBytes
  · subst hz
    decide
  · rw [RolloutBytes.MarshalJSON, if_neg hz]
    exact unmarshal_hexEncode rb hlen hbyte

/-- Witness for C9 on a concrete non-zero cursor. -/
theorem rolloutBytes_hex_roundtrip_witness :
    (List.replicate 32 171 : Bytes).length = 32 ∧
    (∀ x ∈ (List.replicate 32 171 : Bytes), x < 256) ∧
    RolloutBytes.UnmarshalJSON zeroRolloutBytes
        (RolloutBytes.MarshalJSON (List.replicate 32 171)) = .ok (List.replicate 32 171) :=
  ⟨by decide, by decide,
    (rolloutBytes_hex_roundtrip (List.replicate 32 171) (by decide) (by decide)).1⟩

/-! ## C7: the rollout gate's inclusive threshold -/

theorem beNat_lt_pow (l : Bytes) (hb : ∀ x ∈ l, x < 256) :
    beNat l < 256 ^ l.length := by
  induction l with
  | nil => simp [beNat]
  | cons b rest ih =>
    rw [beNat, List.length_cons, pow_succ]
    have hb1 : b < 256 := hb b (by simp)
    have hr : beNat rest < 256 ^ rest.length := ih (fun x hx => hb x (by simp [hx]))
    calc b * 256 ^ rest.length + beNat rest
        < b * 256 ^ rest.length + 256 ^ rest.length := by omega
    _ = (b + 1) * 256 ^ rest.length := by ring
    _ ≤ 256 * 256 ^ rest.length := Nat.mul_le_mul_right _ (by omega)
    _ = 256 ^ rest.length * 256 := by ring

/-- For equal-length byte strings, `bytes.Compare <= 0` is exactly the
big-endian numeric comparison. -/
theorem bytesCompare_le_iff : ∀ (a b : Bytes), a.length = b.length →
    (∀ x ∈ a, x < 256) → (∀ x ∈ b, x < 256) →
    (bytesCompare a b ≤ 0 ↔ beNat a ≤ beNat b) := by
  intro a
  induction a with
  | nil =>
    intro b hlen _ _
    match b with
    | [] => simp [bytesCompare, beNat]
    | _ :: _ => simp at hlen
  | cons x as ih =>
    intro b hlen ha hb
    match b with
    | [] => simp at hlen
    | y :: bs =>
      have hlen2 : as.length = bs.length := by simpa using hlen
      have hxlt : x < 256 := ha x (by simp)
      have hylt : y < 256 := hb y (by simp)
      have hbas : beNat as < 256 ^ as.length :=
        beNat_lt_pow as (fun c hc => ha c (by simp [hc]))
      have hbbs : beNat bs < 256 ^ bs.length :=
        beNat_lt_pow bs (fun c hc => hb c (by simp [hc]))
      rw [bytesCompare, beNat, beNat, hlen2]
      by_cases hxy : x < y
      · rw [if_pos hxy]
        have : x * 256 ^ bs.length + beNat as < y * 256 ^ bs.length + beNat bs := by
          have h1 : x * 256 ^ bs.length + beNat as < (x + 1) * 256 ^ bs.length := by
            rw [hlen2] at hbas
            nlinarith
          have h2 : (x + 1) * 256 ^ bs.length ≤ y * 256 ^ bs.length :=
            Nat.mul_le_mul_right _ (by omega)
          omega
        simp [this]
        omega
      · by_cases hyx : y < x
        · rw [if_neg hxy, if_pos hyx]
          have : y * 256 ^ bs.length + beNat bs < x * 256 ^ bs.length + beNat as := by
            have h1 : y * 256 ^ bs.length + beNat bs < (y + 1) * 256 ^ bs.length := by
              nlinarith
            have h2 : (y + 1) * 256 ^ bs.length ≤ x * 256 ^ bs.length :=
              Nat.mul_le_mul_right _ (by omega)
            omega
          constructor
          · intro h; omega
          · intro h; omega
        · have hxeq : x = y := by omega
          subst hxeq
          rw [if_neg hxy, if_neg hyx,
            ih bs hlen2 (fun c hc => ha c (by simp [hc])) (fun c hc => hb c (by simp [hc]))]
          omega

theorem roundStep_length (st : List Nat) (wk : Nat × Nat) :
    (roundStep st wk).length = 8 := rfl

theorem foldl_roundStep_length :
    ∀ (l : List (Nat × Nat)) (st : List Nat), l ≠ [] →
      (l.foldl roundStep st).length = 8 := by
  intro l
  induction l with
  | nil => intro st h; exact absurd rfl h
  | cons x xs ih =>
    intro st _
    rw [List.foldl_cons]
    match xs with
    | [] => exact roundStep_length st x
    | y :: ys => exact ih (roundStep st x) (by simp)

theorem foldl_scheduleStep_length :
    ∀ (l : List Nat) (b : List Nat),
      (l.foldl scheduleStep b).length = b.length + l.length := by
  intro l
  induction l with
  | nil => simp
  | cons x xs ih =>
    intro b
    rw [List.foldl_cons, ih (scheduleStep b x)]
    rw [scheduleStep]
    simp
    omega

theorem schedule_length (b : List Nat) : (schedule b).length = b.length + 48 := by
  rw [schedule, foldl_scheduleStep_length]
  simp

theorem compress_length (h ws : List Nat) (hws : ws ≠ []) :
    (compress h ws).length = 8 := by
  rw [compress]
  apply foldl_roundStep_length
  match ws, hws with
  | w :: ws2, _ => simp [shaK]

theorem processBlock_length (h : List Nat) (hl : h.length = 8) (block : Bytes) :
    (processBlock h block).length = 8 := by
  have hne : schedule (bytesToWords block) ≠ [] := by
    intro e
    have := schedule_length (bytesToWords block)
    rw [e] at this
    simp at this
  rw [processBlock, zipAdd32, List.length_zipWith, compress_length h _ hne, hl]
  simp

theorem foldl_processBlock_length :
    ∀ (bl : List Bytes) (h : List Nat), h.length = 8 →
      (bl.foldl processBlock h).length = 8 := by
  intro bl
  induction bl with
  | nil => intro h hl; exact hl
  | cons b bs ih =>
    intro h hl
    rw [List.foldl_cons]
    exact ih _ (processBlock_length h hl b)

theorem wordsToBytes_length (ws : List Nat) : (wordsToBytes ws).length = 4 * ws.length := by
  induction ws with
  | nil => rfl
  | cons w rest ih => rw [wordsToBytes]; simp [ih]; omega

theorem wordsToBytes_lt (ws : List Nat) : ∀ x ∈ wordsToBytes ws, x < 256 := by
  induction ws with
  | nil => simp [wordsToBytes]
  | cons w rest ih =>
    intro x hx
    rw [wordsToBytes] at hx
    rcases List.mem_cons.mp hx with rfl | hx2
    · exact Nat.mod_lt _ (by norm_num)
    · rcases List.mem_cons.mp hx2 with rfl | hx3
      · exact Nat.mod_lt _ (by norm_num)
      · rcases List.mem_cons.mp hx3 with rfl | hx4
        · exact Nat.mod_lt _ (by norm_num)
        · rcases List.mem_cons.mp hx4 with rfl | hx5
          · exact Nat.mod_lt _ (by norm_num)
          · exact ih x hx5

theorem sha256_length (msg : Bytes) : (sha256 msg).length = 32 := by
  rw [sha256, wordsToBytes_length, sha256Words,
    foldl_processBlock_length _ shaH0 (by rfl)]

theorem sha256_bytes_lt (msg : Bytes) : ∀ x ∈ sha256 msg, x < 256 := by
  rw [sha256]
  exact wordsToBytes_lt _

theorem hmacSHA256_length (key msg : Bytes) : (hmacSHA256 key msg).length = 32 :=
  sha256_length _

theorem hmacSHA256_bytes_lt (key msg : Bytes) : ∀ x ∈ hmacSHA256 key msg, x < 256 :=
  sha256_bytes_lt _

/-- C7: `isRolloutCandidate` (and its exported wrapper `ShouldUpdate`)
answers true exactly when the HMAC-SHA256 digest of the identity, keyed by
the rollout seed and read as a big-endian 256-bit integer, is less than OR
EQUAL to the rollout cursor: the bound is inclusive. -/
theorem isRolloutCandidate_iff_digest_le (nodeID : Bytes) (rollout : Rollout)
    (hlen : rollout.cursor.length = 32) (hbyte : ∀ x ∈ rollout.cursor, x < 256) :
    ShouldUpdate rollout nodeID = isRolloutCandidate nodeID rollout ∧
    (isRolloutCandidate nodeID rollout = true ↔
      beNat (hmacSHA256 rollout.seed nodeID) ≤ beNat rollout.cursor) := by
  refine ⟨rfl, ?_⟩
  rw [isRolloutCandidate, decide_eq_true_iff]
  exact bytesCompare_le_iff _ _
    (by rw [hmacSHA256_length, hlen])
    (hmacSHA256_bytes_lt _ _) hbyte

/-- Witness for C7 on a concrete identity and rollout configuration. -/
theorem isRolloutCandidate_iff_digest_le_witness :
    (Rollout.mk zeroRolloutBytes zeroRolloutBytes).cursor.length = 32 ∧
    (∀ x ∈ (Rollout.mk zeroRolloutBytes zeroRolloutBytes).cursor, x < 256) ∧
    (ShouldUpdate ⟨zeroRolloutBytes, zeroRolloutBytes⟩ zeroRolloutBytes =
        isRolloutCandidate zeroRolloutBytes ⟨zeroRolloutBytes, zeroRolloutBytes⟩ ∧
      (isRolloutCandidate zeroRolloutBytes ⟨zeroRolloutBytes, zeroRolloutBytes⟩ = true ↔
        beNat (hmacSHA256 zeroRolloutBytes zeroRolloutBytes) ≤ beNat zeroRolloutBytes)) :=
  ⟨by decide, by decide,
    isRolloutCandidate_iff_digest_le zeroRolloutBytes ⟨zeroRolloutBytes, zeroRolloutBytes⟩
      (by decide) (by decide)⟩

/-! ## C4: digits, characters and the formatted string -/

theorem digit_toNat : ∀ d : Fin 10, (Char.ofNat (48 + d.val)).toNat = 48 + d.val := by decide

theorem digit_in_numbers : ∀ d : Fin 10, numbers.contains (Char.ofNat (48 + d.val)) = true := by
  decide

theorem digit_not_dot : ∀ d : Fin 10, Char.ofNat (48 + d.val) ≠ '.' := by decide

theorem digit_not_hyphen : ∀ d : Fin 10, Char.ofNat (48 + d.val) ≠ '-' := by decide

theorem digit_not_plus : ∀ d : Fin 10, Char.ofNat (48 + d.val) ≠ '+' := by decide

theorem digit_not_space : ∀ d : Fin 10, isSpaceGo (Char.ofNat (48 + d.val)) = false := by decide

theorem digit_nonzero_ne_zero_char :
    ∀ d : Fin 10, 1 ≤ d.val → Char.ofNat (48 + d.val) ≠ '0' := by decide

theorem alphanum_props : ∀ c ∈ alphanum, c ≠ '.' ∧ c ≠ '+' ∧ isSpaceGo c = false := by decide

theorem natDigits_ne_nil : ∀ f n, n < f → natDigits f n ≠ [] := by
  intro f
  induction f with
  | zero => intro n h; omega
  | succ f ih =>
    intro n _
    rw [natDigits]
    by_cases h10 : n < 10
    · rw [if_pos h10]; simp
    · rw [if_neg h10]
      intro e
      rcases List.append_eq_nil.mp e with ⟨_, h2⟩
      simp at h2

theorem natDigits_chars : ∀ f n, n < f → ∀ c ∈ natDigits f n,
    ∃ d : Nat, d < 10 ∧ c = Char.ofNat (48 + d) := by
  intro f
  induction f with
  | zero => intro n h; omega
  | succ f ih =>
    intro n hn c hc
    rw [natDigits] at hc
    by_cases h10 : n < 10
    · rw [if_pos h10] at hc
      rcases List.mem_singleton.mp hc with rfl
      exact ⟨n, h10, rfl⟩
    · rw [if_neg h10] at hc
      rcases List.mem_append.mp hc with h | h
      · exact ih (n / 10) (by omega) c h
      · rcases List.mem_singleton.mp h with rfl
        exact ⟨n % 10, Nat.mod_lt _ (by norm_num), rfl⟩

theorem valDigits_append_singleton (l : Chars) (c : Char) :
    valDigits (l ++ [c]) = valDigits l * 10 + (c.toNat - 48) := by
  rw [valDigits, valDigits, List.foldl_append]
  rfl

theorem natDigits_val : ∀ f n, n < f → valDigits (natDigits f n) = n := by
  intro f
  induction f with
  | zero => intro n h; omega
  | succ f ih =>
    intro n hn
    rw [natDigits]
    by_cases h10 : n < 10
    · rw [if_pos h10]
      show valDigits [Char.ofNat (48 + n)] = n
      rw [valDigits]
      simp [digit_toNat ⟨n, h10⟩]
    · rw [if_neg h10, valDigits_append_singleton, ih (n / 10) (by omega),
        digit_toNat ⟨n % 10, Nat.mod_lt _ (by norm_num)⟩]
      show n / 10 * 10 + (48 + n % 10 - 48) = n
      omega

theorem natDigits_take_one : ∀ f n, n < f → 1 ≤ n →
    (natDigits f n).take 1 ≠ ['0'] := by
  intro f
  induction f with
  | zero => intro n h; omega
  | succ f ih =>
    intro n hn h1
    rw [natDigits]
    by_cases h10 : n < 10
    · rw [if_pos h10]
      intro e
      rcases List.cons_eq_cons.mp e with ⟨e1, _⟩
      exact digit_nonzero_ne_zero_char ⟨n, h10⟩ h1 e1
    · rw [if_neg h10]
      have hne := natDigits_ne_nil f (n / 10) (by omega)
      match hrec : natDigits f (n / 10) with
      | [] => exact absurd hrec hne
      | x :: xs =>
        have := ih (n / 10) (by omega) (by omega)
        rw [hrec] at this
        simpa using this

theorem hasLeadingZeroes_natDigits : ∀ f n, n < f →
    hasLeadingZeroes (natDigits f n) = false := by
  intro f n hn
  rw [hasLeadingZeroes]
  by_cases hlen : 1 < (natDigits f n).length
  · have h1 : 1 ≤ n := by
      by_contra h0
      have : n = 0 := by omega
      subst this
      match f, hn with
      | ff + 1, _ =>
        rw [natDigits, if_pos (by norm_num)] at hlen
        simp at hlen
    have := natDigits_take_one f n hn h1
    have htake : ((natDigits f n).take 1 == ['0']) = false := by
      cases h : (natDigits f n).take 1 == ['0']
      · rfl
      · exact absurd (by simpa using h) this
    rw [htake]
    simp
  · simp [hlen]

theorem formatUint_ne_nil (n : Nat) : formatUint n ≠ [] :=
  natDigits_ne_nil (n + 1) n (by omega)

theorem formatUint_chars (n : Nat) : ∀ c ∈ formatUint n,
    ∃ d : Nat, d < 10 ∧ c = Char.ofNat (48 + d) :=
  natDigits_chars (n + 1) n (by omega)

theorem containsOnly_formatUint_numbers (n : Nat) :
    containsOnly (formatUint n) numbers = true := by
  rw [containsOnly, List.all_eq_true]
  intro c hc
  obtain ⟨d, hd, rfl⟩ := formatUint_chars n c hc
  exact digit_in_numbers ⟨d, hd⟩

theorem hasLeadingZeroes_formatUint (n : Nat) :
    hasLeadingZeroes (formatUint n) = false :=
  hasLeadingZeroes_natDigits (n + 1) n (by omega)

theorem valDigits_formatUint (n : Nat) : valDigits (formatUint n) = n :=
  natDigits_val (n + 1) n (by omega)

theorem parseUint_formatUint (n : Nat) (h : n < 2 ^ 64) :
    parseUint (formatUint n) = some n := by
  rw [parseUint, if_neg (by simp [List.isEmpty_iff, formatUint_ne_nil n]),
    if_pos (containsOnly_formatUint_numbers n), valDigits_formatUint n, if_pos h]

theorem parseNumField_formatUint (n : Nat) (h : n < 2 ^ 64) (e : VErr) :
    parseNumField (formatUint n) e = .ok n := by
  rw [parseNumField, containsOnly_formatUint_numbers n]
  rw [if_neg (by simp), if_neg (by simp [hasLeadingZeroes_formatUint n]),
    parseUint_formatUint n h]

theorem breakAt_append (c : Char) (l r : Chars) (h : ∀ x ∈ l, x ≠ c) :
    breakAt c (l ++ c :: r) = some (l, r) := by
  induction l with
  | nil => rw [List.nil_append, breakAt, if_pos rfl]
  | cons x xs ih =>
    rw [List.cons_append, breakAt, if_neg (h x (by simp)),
      ih (fun y hy => h y (by simp [hy]))]
    rfl

theorem breakAt_none (c : Char) (s : Chars) (h : ∀ x ∈ s, x ≠ c) :
    breakAt c s = none := by
  induction s with
  | nil => rfl
  | cons x xs ih =>
    rw [breakAt, if_neg (h x (by simp)), ih (fun y hy => h y (by simp [hy]))]
    rfl

theorem splitAllChar_of_not_mem (c : Char) (s : Chars) (h : ∀ x ∈ s, x ≠ c) :
    splitAllChar c s = [s] := by
  induction s with
  | nil => rfl
  | cons x xs ih =>
    rw [splitAllChar]
    simp only [ih (fun y hy => h y (by simp [hy]))]
    rw [if_neg (h x (by simp))]
    rfl

theorem splitN3_concat (a b c : Chars)
    (ha : ∀ x ∈ a, x ≠ '.') (hb : ∀ x ∈ b, x ≠ '.') :
    splitNChar '.' 3 (a ++ '.' :: (b ++ '.' :: c)) = [a, b, c] := by
  have h3 : splitNChar '.' 3 (a ++ '.' :: (b ++ '.' :: c)) =
      match breakAt '.' (a ++ '.' :: (b ++ '.' :: c)) with
      | none => [a ++ '.' :: (b ++ '.' :: c)]
      | some pr => pr.1 :: splitNChar '.' 2 pr.2 := rfl
  rw [h3, breakAt_append '.' a _ ha]
  show a :: splitNChar '.' 2 (b ++ '.' :: c) = [a, b, c]
  have h2 : splitNChar '.' 2 (b ++ '.' :: c) =
      match breakAt '.' (b ++ '.' :: c) with
      | none => [b ++ '.' :: c]
      | some pr => pr.1 :: splitNChar '.' 1 pr.2 := rfl
  rw [h2, breakAt_append '.' b _ hb]
  rfl

theorem dropWhile_of_all_false (p : Char → Bool) (l : Chars)
    (h : ∀ x ∈ l, p x = false) : l.dropWhile p = l := by
  induction l with
  | nil => rfl
  | cons x xs _ => rw [List.dropWhile_cons, h x (by simp)]; rfl

theorem trimSpace_of_no_space (s : Chars) (h : ∀ c ∈ s, isSpaceGo c = false) :
    trimSpace s = s := by
  rw [trimSpace, dropWhile_of_all_false _ s h,
    dropWhile_of_all_false _ s.reverse (fun c hc => h c (List.mem_reverse.mp hc)),
    List.reverse_reverse]

/-- The well-formedness a `PRVersion` value enjoys exactly when it can
come out of (and go back into) the parser: a numeric identifier stores no
text and fits `uint64`; an alphanumeric identifier is non-empty, uses the
`alphanum` character set, is not all digits, and stores no number. -/
def PRValid (p : PRVersion) : Prop :=
  if p.isNum then p.versionStr = [] ∧ p.versionNum < 2 ^ 64
  else p.versionStr ≠ [] ∧ containsOnly p.versionStr alphanum = true ∧
    containsOnly p.versionStr numbers = false ∧ p.versionNum = 0

instance (p : PRVersion) : Decidable (PRValid p) := by
  rw [PRValid]
  infer_instance

theorem newPRVersion_prString (p : PRVersion) (hv : PRValid p) :
    newPRVersion (prString p) = .ok p := by
  obtain ⟨vs, vn, bn⟩ := p
  rw [PRValid] at hv
  match bn with
  | true =>
    simp only [if_pos] at hv
    obtain ⟨hvs, hvn⟩ := hv
    subst hvs
    rw [prString]
    simp only [if_pos]
    rw [newPRVersion, if_neg (by simp [formatUint_ne_nil vn]),
      if_pos (containsOnly_formatUint_numbers vn)]
    rw [if_neg (by simp [hasLeadingZeroes_formatUint vn]), parseUint_formatUint vn hvn]
  | false =>
    simp only [if_neg, Bool.false_eq_true, if_false] at hv
    obtain ⟨hne, halnum, hnonnum, hvn⟩ := hv
    subst hvn
    rw [prString]
    simp only [Bool.false_eq_true, if_false]
    rw [newPRVersion, if_neg (by simp [hne]), hnonnum]
    simp only [Bool.false_eq_true, if_false]
    rw [if_pos halnum]

theorem parsePreList_single (s : Chars) (p : PRVersion)
    (h : newPRVersion s = .ok p) : parsePreList [s] = .ok [p] := by
  rw [parsePreList, h]
  rfl

theorem list_contains_mem {c : Char} {l : Chars} (h : l.contains c = true) : c ∈ l := by
  simpa using h

theorem prString_char_props (p : PRVersion) (hv : PRValid p) :
    ∀ c ∈ prString p, c ≠ '.' ∧ c ≠ '+' ∧ isSpaceGo c = false := by
  obtain ⟨vs, vn, bn⟩ := p
  rw [PRValid] at hv
  match bn with
  | true =>
    intro c hc
    rw [prString] at hc
    simp only [if_pos] at hc
    obtain ⟨d, hd, rfl⟩ := formatUint_chars vn c hc
    exact ⟨digit_not_dot ⟨d, hd⟩, digit_not_plus ⟨d, hd⟩, digit_not_space ⟨d, hd⟩⟩
  | false =>
    intro c hc
    rw [prString] at hc
    simp only [Bool.false_eq_true, if_false] at hc
    have halnum := hv.2.1
    rw [containsOnly, List.all_eq_true] at halnum
    exact alphanum_props c (list_contains_mem (halnum c hc))

theorem formatUint_no_dot (n : Nat) : ∀ x ∈ formatUint n, x ≠ '.' := by
  intro c hc
  obtain ⟨d, hd, rfl⟩ := formatUint_chars n c hc
  exact digit_not_dot ⟨d, hd⟩

theorem formatUint_no_hyphen (n : Nat) : ∀ x ∈ formatUint n, x ≠ '-' := by
  intro c hc
  obtain ⟨d, hd, rfl⟩ := formatUint_chars n c hc
  exact digit_not_hyphen ⟨d, hd⟩

theorem formatUint_no_plus (n : Nat) : ∀ x ∈ formatUint n, x ≠ '+' := by
  intro c hc
  obtain ⟨d, hd, rfl⟩ := formatUint_chars n c hc
  exact digit_not_plus ⟨d, hd⟩

theorem parseVersion_concat_nopre (ma mi pa : Nat)
    (hma : ma < 2 ^ 64) (hmi : mi < 2 ^ 64) (hpa : pa < 2 ^ 64) :
    parseVersion (formatUint ma ++ '.' :: (formatUint mi ++ '.' :: formatUint pa)) =
      .ok ⟨ma, mi, pa, [], []⟩ := by
  have hsplit := splitN3_concat (formatUint ma) (formatUint mi) (formatUint pa)
    (formatUint_no_dot ma) (formatUint_no_dot mi)
  have hne : ¬ (formatUint ma ++ '.' ::
      (formatUint mi ++ '.' :: formatUint pa)).length = 0 := by simp
  unfold parseVersion
  rw [if_neg hne, hsplit]
  simp only [parseNumField_formatUint ma hma .badMajor,
    parseNumField_formatUint mi hmi .badMinor,
    breakAt_none '+' (formatUint pa) (formatUint_no_plus pa),
    breakAt_none '-' (formatUint pa) (formatUint_no_hyphen pa),
    parseNumField_formatUint pa hpa .badPatch, parsePreList, checkBuild]

theorem parseVersion_concat_onepre (ma mi pa : Nat) (p : PRVersion)
    (hma : ma < 2 ^ 64) (hmi : mi < 2 ^ 64) (hpa : pa < 2 ^ 64) (hp : PRValid p) :
    parseVersion (formatUint ma ++ '.' ::
        (formatUint mi ++ '.' :: (formatUint pa ++ '-' :: prString p))) =
      .ok ⟨ma, mi, pa, [p], []⟩ := by
  have hsplit := splitN3_concat (formatUint ma) (formatUint mi)
    (formatUint pa ++ '-' :: prString p)
    (formatUint_no_dot ma) (formatUint_no_dot mi)
  have hne : ¬ (formatUint ma ++ '.' ::
      (formatUint mi ++ '.' :: (formatUint pa ++ '-' :: prString p))).length = 0 := by simp
  have hplus : ∀ x ∈ formatUint pa ++ '-' :: prString p, x ≠ '+' := by
    intro x hx
    rcases List.mem_append.mp hx with h | h
    · exact formatUint_no_plus pa x h
    · rcases List.mem_cons.mp h with rfl | h2
      · decide
      · exact (prString_char_props p hp x h2).2.1
  have hnodot : ∀ x ∈ prString p, x ≠ '.' :=
    fun x hx => (prString_char_props p hp x hx).1
  unfold parseVersion
  rw [if_neg hne, hsplit]
  simp only [parseNumField_formatUint ma hma .badMajor,
    parseNumField_formatUint mi hmi .badMinor,
    breakAt_none '+' _ hplus,
    breakAt_append '-' (formatUint pa) (prString p) (formatUint_no_hyphen pa),
    splitAllChar_of_not_mem '.' (prString p) hnodot,
    parseNumField_formatUint pa hpa .badPatch,
    parsePreList_single (prString p) p (newPRVersion_prString p hp), checkBuild]

/-- Well-formedness of a `SemVer` value for the round-trip statement:
numeric components within `uint64`, no build metadata (the `String` method
never prints it), and well-formed prerelease identifiers. -/
def SemVerValid (v : SemVer) : Prop :=
  v.major < 2 ^ 64 ∧ v.minor < 2 ^ 64 ∧ v.patch < 2 ^ 64 ∧ v.build = [] ∧
    ∀ p ∈ v.pre, PRValid p

instance (v : SemVer) : Decidable (SemVerValid v) := by
  rw [SemVerValid]
  infer_instance

theorem preTail_no_space (pre : List PRVersion) (h : ∀ p ∈ pre, PRValid p) :
    ∀ c ∈ preTail pre, isSpaceGo c = false := by
  induction pre with
  | nil => simp [preTail]
  | cons p ps ih =>
    intro c hc
    rw [preTail] at hc
    rcases List.mem_cons.mp hc with rfl | hc2
    · decide
    · rcases List.mem_append.mp hc2 with h3 | h3
      · exact (prString_char_props p (h p (by simp)) c h3).2.2
      · exact ih (fun q hq => h q (by simp [hq])) c h3

theorem formatUint_no_space (n : Nat) : ∀ c ∈ formatUint n, isSpaceGo c = false := by
  intro c hc
  obtain ⟨d, hd, rfl⟩ := formatUint_chars n c hc
  exact digit_not_space ⟨d, hd⟩

theorem semverString_no_space (v : SemVer) (h : ∀ p ∈ v.pre, PRValid p) :
    ∀ c ∈ SemVer.string v, isSpaceGo c = false := by
  intro c hc
  rw [SemVer.string] at hc
  rcases List.mem_cons.mp hc with rfl | hc2
  · decide
  · rcases List.mem_append.mp hc2 with h3 | h3
    · exact formatUint_no_space _ c h3
    · rcases List.mem_cons.mp h3 with rfl | h4
      · decide
      · rcases List.mem_append.mp h4 with h5 | h5
        · exact formatUint_no_space _ c h5
        · rcases List.mem_cons.mp h5 with rfl | h6
          · decide
          · rcases List.mem_append.mp h6 with h7 | h7
            · exact formatUint_no_space _ c h7
            · exact preTail_no_space v.pre h c h7

theorem trimPrefixV_cons (l : Chars) : trimPrefixV ('v' :: l) = l := rfl

/-- Round trip of `parseTolerant` after `SemVer.string` for a valid version
with at most one prerelease identifier. -/
theorem parseTolerant_semverString (v : SemVer) (hv : SemVerValid v)
    (hpre : v.pre.length ≤ 1) :
    parseTolerant (SemVer.string v) = .ok v := by
  obtain ⟨ma, mi, pa, pre, bld⟩ := v
  obtain ⟨hma, hmi, hpa, hbld, hprev⟩ := hv
  simp only at hma hmi hpa hbld hprev
  subst hbld
  have hns := semverString_no_space ⟨ma, mi, pa, pre, []⟩ hprev
  match pre, hpre with
  | [], _ =>
    have hs : SemVer.string ⟨ma, mi, pa, [], []⟩ =
        'v' :: (formatUint ma ++ '.' :: (formatUint mi ++ '.' :: formatUint pa)) := by
      rw [SemVer.string, preTail, List.append_nil]
    rw [hs] at hns
    have hsplit := splitN3_concat (formatUint ma) (formatUint mi) (formatUint pa)
      (formatUint_no_dot ma) (formatUint_no_dot mi)
    unfold parseTolerant
    rw [hs, trimSpace_of_no_space _ hns, trimPrefixV_cons]
    simp only [hsplit, List.length_cons, List.length_nil]
    rw [if_neg (by norm_num)]
    exact parseVersion_concat_nopre ma mi pa hma hmi hpa
  | [p], _ =>
    have hp : PRValid p := hprev p (by simp)
    have hs : SemVer.string ⟨ma, mi, pa, [p], []⟩ =
        'v' :: (formatUint ma ++ '.' ::
          (formatUint mi ++ '.' :: (formatUint pa ++ '-' :: prString p))) := by
      rw [SemVer.string, preTail, preTail, List.append_nil]
    rw [hs] at hns
    have hsplit := splitN3_concat (formatUint ma) (formatUint mi)
      (formatUint pa ++ '-' :: prString p)
      (formatUint_no_dot ma) (formatUint_no_dot mi)
    unfold parseTolerant
    rw [hs, trimSpace_of_no_space _ hns, trimPrefixV_cons]
    simp only [hsplit, List.length_cons, List.length_nil]
    rw [if_neg (by norm_num)]
    exact parseVersion_concat_onepre ma mi pa p hma hmi hpa hp

/-- C4 counterexample: the valid version `1.0.0` with TWO prerelease
identifiers `a` and `b` does not round-trip: `SemVer.String` joins the
identifiers with `-` (not `.`), printing `v1.0.0-a-b`, which `NewSemVer`
parses back as the SINGLE identifier `a-b` (hyphens are legal inside one
alphanumeric identifier), so `NewSemVer (v.String())` differs from `v`. -/
theorem newSemVer_string_roundtrip_cex :
    SemVer.string ⟨1, 0, 0, [⟨("a").data, 0, false⟩, ⟨("b").data, 0, false⟩], []⟩ =
      ("v1.0.0-a-b").data ∧
    NewSemVer (String.mk (SemVer.string
        ⟨1, 0, 0, [⟨("a").data, 0, false⟩, ⟨("b").data, 0, false⟩], []⟩)) =
      .ok ⟨1, 0, 0, [⟨("a-b").data, 0, false⟩], []⟩ ∧
    NewSemVer (String.mk (SemVer.string
        ⟨1, 0, 0, [⟨("a").data, 0, false⟩, ⟨("b").data, 0, false⟩], []⟩)) ≠
      .ok ⟨1, 0, 0, [⟨("a").data, 0, false⟩, ⟨("b").data, 0, false⟩], []⟩ := by
  refine ⟨by decide, by decide, by decide⟩

/-- C4 amended: the round trip `NewSemVer (v.String()) = v` holds for every
valid version (numeric components within `uint64`, no build metadata,
well-formed prerelease identifiers) with AT MOST ONE prerelease
identifier; with two or more identifiers the format is not dot-joined but
hyphen-joined and parsing merges the identifiers (see the counterexample). -/
theorem newSemVer_string_roundtrip (v : SemVer) (hv : SemVerValid v)
    (hpre : v.pre.length ≤ 1) :
    NewSemVer (String.mk (SemVer.string v)) = .ok v := by
  rw [NewSemVer]
  exact parseTolerant_semverString v hv hpre

/-- Witness for the amended C4 on `v1.2.3-alpha`. -/
theorem newSemVer_string_roundtrip_witness :
    SemVerValid ⟨1, 2, 3, [⟨("alpha").data, 0, false⟩], []⟩ ∧
    (⟨1, 2, 3, [⟨("alpha").data, 0, false⟩], []⟩ : SemVer).pre.length ≤ 1 ∧
    NewSemVer (String.mk (SemVer.string ⟨1, 2, 3, [⟨("alpha").data, 0, false⟩], []⟩)) =
      .ok ⟨1, 2, 3, [⟨("alpha").data, 0, false⟩], []⟩ :=
  ⟨by decide, by decide,
    newSemVer_string_roundtrip ⟨1, 2, 3, [⟨("alpha").data, 0, false⟩], []⟩
      (by decide) (by decide)⟩
